import Mathlib

/-!
Shallow embedding of the `rangeset` crate (`src/lib.rs`): non-overlapping
sets of inclusive `usize` ranges.

`usize` values are modelled as `Nat` together with the constant `USIZE_MAX`
(64-bit target); arithmetic that can overflow in Rust is made explicit:
`checked_add` returns `none` on overflow, the saturating operations clamp,
and the one unchecked addition (in `len`) wraps modulo `USIZE_MAX + 1`.
The backing array `[Range; N]` is modelled as a list whose length is the
capacity `N`; `in_use` counts the entries in use, exactly as in the source.
The `while` loops of `insert` and `remove` decrease the measure
`in_use - idx` by exactly one in every iteration, so they are embedded as
structural recursion on the fuel `in_use - idx`; the lemmas
`insertLoop_eq` and `removeLoop_eq` below show that the embeddings satisfy
the loops' step equations literally.
Rust `&mut self` methods returning `Result` become functions returning
`RangeSet × Except Error α`: the first component is the state of `self`
when the method returns, on the error paths included.
-/

/-- Maximum value of the unsigned machine word (64-bit target). -/
def USIZE_MAX : Nat := 2 ^ 64 - 1

/-- Rust `usize::checked_add`. -/
def checked_add (a b : Nat) : Option Nat :=
  if a + b ≤ USIZE_MAX then some (a + b) else none

/-- Rust `usize::saturating_add`. -/
def saturating_add (a b : Nat) : Nat :=
  min (a + b) USIZE_MAX

/-- Rust `usize::saturating_sub` (`Nat` subtraction already saturates at zero). -/
def saturating_sub (a b : Nat) : Nat := a - b

/-- An inclusive range (`Range` in the source).  The Rust field `end` is a
Lean keyword, hence the guillemets. -/
structure Range where
  start : Nat
  «end» : Nat
deriving DecidableEq

/-- Errors returned by the range-based routines. -/
inductive Error where
  | InvalidRange (r : Range)
  | IndexOutOfBounds (idx : Nat)
  | RangeSetOverflow
  | ZeroSizedAllocation
deriving DecidableEq

/-- `Range::new`: returns an error if the range is invalid (`start > end`). -/
def Range.new (start en : Nat) : Except Error Range :=
  if start ≤ en then .ok ⟨start, en⟩ else .error (.InvalidRange ⟨start, en⟩)

/-- `Range::contains`: `other` is completely contained within `self`. -/
def Range.contains (self other : Range) : Prop :=
  self.start ≤ other.start ∧ other.«end» ≤ self.«end»

instance (a b : Range) : Decidable (a.contains b) :=
  inferInstanceAs (Decidable (a.start ≤ b.start ∧ b.«end» ≤ a.«end»))

/-- `Range::overlaps`: if the two ranges overlap, their overlap. -/
def Range.overlaps (self other : Range) : Option Range :=
  if self.start ≤ other.«end» ∧ other.start ≤ self.«end» then
    some ⟨max self.start other.start, min self.«end» other.«end»⟩
  else none

/-- Validity of a range as a pair of machine words with `start <= end`. -/
def Range.WF (r : Range) : Prop :=
  r.start ≤ r.«end» ∧ r.«end» ≤ USIZE_MAX

instance (r : Range) : Decidable r.WF :=
  inferInstanceAs (Decidable (r.start ≤ r.«end» ∧ r.«end» ≤ USIZE_MAX))

instance {ε α : Type} [DecidableEq ε] [DecidableEq α] : DecidableEq (Except ε α) := fun x y =>
  match x, y with
  | .error a, .error b => if h : a = b then isTrue (by rw [h]) else isFalse (by simp [h])
  | .error _, .ok _ => isFalse (by simp)
  | .ok _, .error _ => isFalse (by simp)
  | .ok a, .ok b => if h : a = b then isTrue (by rw [h]) else isFalse (by simp [h])

/-- A set of non-overlapping inclusive ranges (`RangeSet<N>` in the source).
`ranges` is the backing array, its length is the capacity `N`. -/
structure RangeSet where
  ranges : List Range
  in_use : Nat
deriving DecidableEq

/-- `RangeSet::new`: empty set with capacity `N`. -/
def RangeSet.new (N : Nat) : RangeSet :=
  ⟨List.replicate N ⟨0, 0⟩, 0⟩

/-- `RangeSet::entries`: the used prefix of the backing array. -/
def RangeSet.entries (s : RangeSet) : List Range :=
  s.ranges.take s.in_use

/-- `RangeSet::len`: total size covered, with `checked_add` on each entry
size and a wrapping (release-mode) addition onto the accumulator. -/
def RangeSet.len (s : RangeSet) : Option Nat :=
  s.entries.foldl
    (fun acc x =>
      match acc with
      | none => none
      | some a =>
        match checked_add (x.«end» - x.start) 1 with
        | none => none
        | some v => some ((a + v) % (USIZE_MAX + 1)))
    (some 0)

/-- `RangeSet::is_empty`. -/
def RangeSet.is_empty (s : RangeSet) : Bool :=
  s.in_use == 0

/-- Rust `slice::swap i j`.  Out-of-bounds positions leave the list
unchanged (the embedding is total; every call site is in bounds). -/
def swapIdx (l : List Range) (i j : Nat) : List Range :=
  if i < l.length ∧ j < l.length then
    (l.set i (l.getD j ⟨0, 0⟩)).set j (l.getD i ⟨0, 0⟩)
  else l

/-- The loop `for i in idx..stop { ranges.swap(i, i+1) }` of `delete`,
as `n` successive adjacent swaps starting at position `i`. -/
def swapRunF : Nat → List Range → Nat → List Range
  | 0, l, _ => l
  | n + 1, l, i => swapRunF n (swapIdx l i (i + 1)) (i + 1)

/-- `RangeSet::delete`: delete the range at `idx`. -/
def RangeSet.delete (s : RangeSet) (idx : Nat) : RangeSet × Except Error Unit :=
  if s.in_use ≤ idx then (s, .error (.IndexOutOfBounds idx))
  else (⟨swapRunF (s.in_use - 1 - idx) s.ranges idx, s.in_use - 1⟩, .ok ())

/-- Rust `slice::copy_within(start..stop, dest)` (memmove semantics: all
reads come from the original list).  Positions outside
`[dest, dest + (stop - start))` keep their values; the length is unchanged. -/
def copyWithin (l : List Range) (start stop dest : Nat) : List Range :=
  (List.range l.length).map fun j =>
    if dest ≤ j ∧ j < dest + (stop - start) then l.getD (start + (j - dest)) ⟨0, 0⟩
    else l.getD j ⟨0, 0⟩

/-- The scanning `while` loop of `RangeSet::insert`, on fuel
`in_use - idx` (each iteration decreases that measure by exactly one).
Returns the possibly merged range and the insertion position. -/
def insertLoopF : Nat → RangeSet → Range → Nat → RangeSet × Except Error (Range × Nat)
  | 0, s, range, idx => (s, .ok (range, idx))
  | fuel + 1, s, range, idx =>
    if idx < s.in_use then
      let entry := s.ranges.getD idx ⟨0, 0⟩
      match checked_add entry.«end» 1 with
      | none => (s, .error .RangeSetOverflow)
      | some eend =>
        if eend < range.start then insertLoopF fuel s range (idx + 1)
        else if range.«end» < entry.start then (s, .ok (range, idx))
        else
          let range' : Range := ⟨min entry.start range.start, max entry.«end» range.«end»⟩
          match s.delete idx with
          | (s', .ok _) => insertLoopF fuel s' range' idx
          | (s', .error e) => (s', .error e)
    else (s, .ok (range, idx))

/-- The scanning loop of `insert`, entered at position `idx`. -/
def insertLoop (s : RangeSet) (range : Range) (idx : Nat) :
    RangeSet × Except Error (Range × Nat) :=
  insertLoopF (s.in_use - idx) s range idx

/-- `RangeSet::insert`. -/
def RangeSet.insert (s : RangeSet) (range : Range) : RangeSet × Except Error Unit :=
  match insertLoop s range 0 with
  | (s', .error e) => (s', .error e)
  | (s', .ok (range', idx)) =>
    if s'.ranges.length ≤ s'.in_use then (s', .error .RangeSetOverflow)
    else
      let r1 := if idx < s'.in_use then copyWithin s'.ranges idx s'.in_use (idx + 1)
                else s'.ranges
      (⟨r1.set idx range', s'.in_use + 1⟩, .ok ())

/-- `RangeSet::split_entry`: split the entry at `idx` in two when `range`
is fully contained in it. -/
def RangeSet.split_entry (s : RangeSet) (idx : Nat) (range : Range) :
    RangeSet × Except Error Bool :=
  if s.in_use ≤ idx then (s, .error (.IndexOutOfBounds idx))
  else if s.ranges.length ≤ s.in_use then (s, .error .RangeSetOverflow)
  else
    let entry := s.ranges.getD idx ⟨0, 0⟩
    if ¬ entry.contains range then (s, .ok false)
    else
      let r1 := if entry.start < range.start
        then s.ranges.set idx ⟨entry.start, saturating_sub range.start 1⟩
        else s.ranges.set idx ⟨entry.start, entry.start⟩
      let r2 := if idx + 1 < s.in_use then copyWithin r1 (idx + 1) s.in_use (idx + 2)
                else r1
      match Range.new (saturating_add range.«end» 1) entry.«end» with
      | .error e => (⟨r2, s.in_use⟩, .error e)
      | .ok newR => (⟨r2.set (idx + 1) newR, s.in_use + 1⟩, .ok true)

/-- The scanning `while` loop of `RangeSet::remove`, on fuel
`in_use - idx` (each iteration decreases that measure by exactly one). -/
def removeLoopF : Nat → RangeSet → Range → Nat → Bool → RangeSet × Except Error Bool
  | 0, s, _, _, any_removed => (s, .ok any_removed)
  | fuel + 1, s, range, idx, any_removed =>
    if idx < s.in_use then
      let entry := s.ranges.getD idx ⟨0, 0⟩
      match entry.overlaps range with
      | none => removeLoopF fuel s range (idx + 1) any_removed
      | some _ =>
        if range.contains entry then
          match s.delete idx with
          | (s', .ok _) => removeLoopF fuel s' range idx true
          | (s', .error e) => (s', .error e)
        else if range.start ≤ entry.start then
          removeLoopF fuel ⟨s.ranges.set idx ⟨saturating_add range.«end» 1, entry.«end»⟩, s.in_use⟩
            range (idx + 1) true
        else if entry.«end» ≤ range.«end» then
          removeLoopF fuel ⟨s.ranges.set idx ⟨entry.start, saturating_sub range.start 1⟩, s.in_use⟩
            range (idx + 1) true
        else
          match s.split_entry idx range with
          | (s', .ok b) => removeLoopF fuel s' range (idx + (if b then 1 else 0) + 1) true
          | (s', .error e) => (s', .error e)
    else (s, .ok any_removed)

/-- The scanning loop of `remove`, entered at position `idx`. -/
def removeLoop (s : RangeSet) (range : Range) (idx : Nat) (any_removed : Bool) :
    RangeSet × Except Error Bool :=
  removeLoopF (s.in_use - idx) s range idx any_removed

/-- `RangeSet::remove`. -/
def RangeSet.remove (s : RangeSet) (range : Range) : RangeSet × Except Error Bool :=
  removeLoop s range 0 false

/-- A public mutating call on a `RangeSet`. -/
inductive Op where
  | ins (r : Range)
  | rem (r : Range)
deriving DecidableEq

/-- The range argument of an operation. -/
def Op.range : Op → Range
  | .ins r => r
  | .rem r => r

/-- Run one public operation, keeping the state it leaves behind whether it
succeeds or fails. -/
def applyOp (s : RangeSet) : Op → RangeSet
  | .ins r => (s.insert r).1
  | .rem r => (s.remove r).1

/-- Run a sequence of public operations from the empty set of capacity `N`. -/
def applyOps (N : Nat) (ops : List Op) : RangeSet :=
  ops.foldl applyOp (RangeSet.new N)

/-- The relation between adjacent entries demanded by structural
invariants 1 to 3 of the spec: strictly ascending, non-overlapping,
non-touching. -/
def gapRel (a b : Range) : Prop := a.«end» + 1 < b.start

instance (a b : Range) : Decidable (gapRel a b) :=
  inferInstanceAs (Decidable (a.«end» + 1 < b.start))

/-- `gapRel` holding between every pair of adjacent list elements:
structural invariants 1 to 3 of the spec, `entries[i].end + 1 <
entries[i+1].start` for all adjacent `i`. -/
def gapChained : List Range → Prop
  | [] => True
  | [_] => True
  | a :: b :: rest => gapRel a b ∧ gapChained (b :: rest)

instance gapChainedDec : (l : List Range) → Decidable (gapChained l)
  | [] => inferInstanceAs (Decidable True)
  | [_] => inferInstanceAs (Decidable True)
  | a :: b :: rest =>
    have := gapChainedDec (b :: rest)
    inferInstanceAs (Decidable (gapRel a b ∧ gapChained (b :: rest)))

/-- The structural invariants of a `RangeSet`: every entry in use is a
valid machine-word range, adjacent entries are separated by a gap
(invariants 1 to 3), and `in_use` is within capacity (invariant 4). -/
def Invariants (s : RangeSet) : Prop :=
  (∀ e ∈ s.entries, e.WF) ∧ gapChained s.entries ∧ s.in_use ≤ s.ranges.length

instance (s : RangeSet) : Decidable (Invariants s) :=
  inferInstanceAs (Decidable ((∀ e ∈ s.entries, e.WF) ∧
    gapChained s.entries ∧ s.in_use ≤ s.ranges.length))

/-- The mathematical total size: sum over the entries of `end - start + 1`. -/
def totalSize (s : RangeSet) : Nat :=
  (s.entries.map (fun e => e.«end» - e.start + 1)).sum

/-! ## Basic structural lemmas -/

theorem swapIdx_length (l : List Range) (i j : Nat) :
    (swapIdx l i j).length = l.length := by
  unfold swapIdx; split <;> simp

theorem swapRunF_length (n : Nat) : ∀ (l : List Range) (i : Nat),
    (swapRunF n l i).length = l.length := by
  induction n with
  | zero => intro l i; rfl
  | succ n ih => intro l i; rw [swapRunF, ih, swapIdx_length]

theorem copyWithin_length (l : List Range) (a b c : Nat) :
    (copyWithin l a b c).length = l.length := by
  simp [copyWithin]

theorem delete_of_lt {s : RangeSet} {idx : Nat} (h : idx < s.in_use) :
    s.delete idx =
      (⟨swapRunF (s.in_use - 1 - idx) s.ranges idx, s.in_use - 1⟩, .ok ()) := by
  unfold RangeSet.delete
  rw [if_neg (by omega)]

theorem delete_of_ge {s : RangeSet} {idx : Nat} (h : s.in_use ≤ idx) :
    s.delete idx = (s, .error (.IndexOutOfBounds idx)) := by
  unfold RangeSet.delete
  rw [if_pos h]

theorem insertLoop_eq (s : RangeSet) (range : Range) (idx : Nat) :
    insertLoop s range idx =
      (if idx < s.in_use then
        let entry := s.ranges.getD idx ⟨0, 0⟩
        match checked_add entry.«end» 1 with
        | none => (s, .error .RangeSetOverflow)
        | some eend =>
          if eend < range.start then insertLoop s range (idx + 1)
          else if range.«end» < entry.start then (s, .ok (range, idx))
          else
            let range' : Range := ⟨min entry.start range.start, max entry.«end» range.«end»⟩
            match s.delete idx with
            | (s', .ok _) => insertLoop s' range' idx
            | (s', .error e) => (s', .error e)
      else (s, .ok (range, idx))) := by
  rcases Nat.lt_or_ge idx s.in_use with h | h
  · rw [if_pos h]
    unfold insertLoop
    rw [show s.in_use - idx = (s.in_use - 1 - idx) + 1 from by omega]
    rw [delete_of_lt h]
    simp only [insertLoopF, if_pos h]
    rw [delete_of_lt h]
    rw [show s.in_use - (idx + 1) = s.in_use - 1 - idx from by omega]
  · rw [if_neg (by omega)]
    unfold insertLoop
    rw [Nat.sub_eq_zero_of_le h]
    rfl

theorem split_entry_ok {s s' : RangeSet} {idx : Nat} {range : Range} {b : Bool}
    (h : s.split_entry idx range = (s', .ok b)) :
    s'.in_use = (if b then s.in_use + 1 else s.in_use) ∧
      s'.ranges.length = s.ranges.length ∧ (b = false → s' = s) := by
  unfold RangeSet.split_entry at h
  simp only [] at h
  repeat' split at h
  all_goals injection h with h1 h2
  all_goals try exact Except.noConfusion h2
  all_goals injection h2 with h3
  all_goals subst h1
  all_goals subst h3
  all_goals refine ⟨by simp, by simp [copyWithin_length], fun hf => ?_⟩
  all_goals first | rfl | cases hf

theorem removeLoop_eq (s : RangeSet) (range : Range) (idx : Nat) (any_removed : Bool) :
    removeLoop s range idx any_removed =
      (if idx < s.in_use then
        let entry := s.ranges.getD idx ⟨0, 0⟩
        match entry.overlaps range with
        | none => removeLoop s range (idx + 1) any_removed
        | some _ =>
          if range.contains entry then
            match s.delete idx with
            | (s', .ok _) => removeLoop s' range idx true
            | (s', .error e) => (s', .error e)
          else if range.start ≤ entry.start then
            removeLoop ⟨s.ranges.set idx ⟨saturating_add range.«end» 1, entry.«end»⟩, s.in_use⟩
              range (idx + 1) true
          else if entry.«end» ≤ range.«end» then
            removeLoop ⟨s.ranges.set idx ⟨entry.start, saturating_sub range.start 1⟩, s.in_use⟩
              range (idx + 1) true
          else
            match s.split_entry idx range with
            | (s', .ok b) => removeLoop s' range (idx + (if b then 1 else 0) + 1) true
            | (s', .error e) => (s', .error e)
      else (s, .ok any_removed)) := by
  rcases Nat.lt_or_ge idx s.in_use with h | h
  · rw [if_pos h]
    unfold removeLoop
    rw [show s.in_use - idx = (s.in_use - 1 - idx) + 1 from by omega]
    simp only [removeLoopF, if_pos h]
    rcases hov : (s.ranges.getD idx ⟨0, 0⟩).overlaps range with _ | x
    · dsimp only
      rw [show s.in_use - (idx + 1) = s.in_use - 1 - idx from by omega]
    · dsimp only
      by_cases hc : range.contains (s.ranges.getD idx ⟨0, 0⟩)
      · rw [if_pos hc, delete_of_lt h]
        dsimp only
        rw [if_pos hc]
      · rw [if_neg hc, if_neg hc]
        by_cases h1 : range.start ≤ (s.ranges.getD idx ⟨0, 0⟩).start
        · rw [if_pos h1, if_pos h1]
          rw [show s.in_use - (idx + 1) = s.in_use - 1 - idx from by omega]
        · rw [if_neg h1, if_neg h1]
          by_cases h2 : (s.ranges.getD idx ⟨0, 0⟩).«end» ≤ range.«end»
          · rw [if_pos h2, if_pos h2]
            rw [show s.in_use - (idx + 1) = s.in_use - 1 - idx from by omega]
          · rw [if_neg h2, if_neg h2]
            rcases hsp : s.split_entry idx range with ⟨s2, r⟩
            rcases r with e | b
            · rfl
            · dsimp only
              obtain ⟨hu, -, -⟩ := split_entry_ok hsp
              congr 1
              rcases b with _ | _
              · rw [if_neg (by simp)] at hu
                simp only [if_neg (show ¬ ((false : Bool) = true) from by simp)]
                omega
              · rw [if_pos rfl] at hu
                simp only [eq_self_iff_true, if_true]
                omega
  · rw [if_neg (by omega)]
    unfold removeLoop
    rw [Nat.sub_eq_zero_of_le h]
    rfl

/-! ## Analysis of the insert scan loop -/

theorem insertLoopF_ok_mono (fuel : Nat) :
    ∀ {s : RangeSet} {range : Range} {idx : Nat} {s1 : RangeSet} {r1 : Range} {i1 : Nat},
      insertLoopF fuel s range idx = (s1, .ok (r1, i1)) →
      s1.in_use ≤ s.in_use ∧ s1.ranges.length = s.ranges.length ∧
        (s1.in_use = s.in_use → s1 = s) := by
  induction fuel with
  | zero =>
    intro s range idx s1 r1 i1 h
    injection h with h1 h2
    subst h1
    exact ⟨le_refl _, rfl, fun _ => rfl⟩
  | succ n ih =>
    intro s range idx s1 r1 i1 h
    simp only [insertLoopF] at h
    by_cases hlt : idx < s.in_use
    · rw [if_pos hlt] at h
      rcases hch : checked_add (s.ranges.getD idx ⟨0, 0⟩).«end» 1 with _ | eend
      · rw [hch] at h
        dsimp only at h
        injection h with ha hb
        exact Except.noConfusion hb
      · rw [hch] at h
        dsimp only at h
        by_cases h1' : eend < range.start
        · rw [if_pos h1'] at h
          exact ih h
        · rw [if_neg h1'] at h
          by_cases h2' : range.«end» < (s.ranges.getD idx ⟨0, 0⟩).start
          · rw [if_pos h2'] at h
            injection h with ha hb
            subst ha
            exact ⟨le_refl _, rfl, fun _ => rfl⟩
          · rw [if_neg h2'] at h
            rw [delete_of_lt hlt] at h
            dsimp only at h
            obtain ⟨ha, hb, -⟩ := ih h
            dsimp only at ha hb
            rw [swapRunF_length] at hb
            exact ⟨by omega, hb, fun heq => absurd heq (by omega)⟩
    · rw [if_neg hlt] at h
      injection h with ha hb
      subst ha
      exact ⟨le_refl _, rfl, fun _ => rfl⟩

theorem insertLoopF_error_kind (fuel : Nat) :
    ∀ {s : RangeSet} {range : Range} {idx : Nat} {s1 : RangeSet} {e : Error},
      insertLoopF fuel s range idx = (s1, .error e) → e = .RangeSetOverflow := by
  induction fuel with
  | zero =>
    intro s range idx s1 e h
    injection h with h1 h2
    exact Except.noConfusion h2
  | succ n ih =>
    intro s range idx s1 e h
    simp only [insertLoopF] at h
    by_cases hlt : idx < s.in_use
    · rw [if_pos hlt] at h
      rcases hch : checked_add (s.ranges.getD idx ⟨0, 0⟩).«end» 1 with _ | eend
      · rw [hch] at h
        dsimp only at h
        injection h with ha hb
        injection hb with hb2
        exact hb2.symm
      · rw [hch] at h
        dsimp only at h
        by_cases h1' : eend < range.start
        · rw [if_pos h1'] at h
          exact ih h
        · rw [if_neg h1'] at h
          by_cases h2' : range.«end» < (s.ranges.getD idx ⟨0, 0⟩).start
          · rw [if_pos h2'] at h
            injection h with ha hb
            exact Except.noConfusion hb
          · rw [if_neg h2'] at h
            rw [delete_of_lt hlt] at h
            dsimp only at h
            exact ih h
    · rw [if_neg hlt] at h
      injection h with ha hb
      exact Except.noConfusion hb

/-- C7: during `insert`'s scan, `entry.end + 1` is computed before any
comparison with the inserted range; if the entry under the scan has
`end = USIZE_MAX` the addition overflows and `insert` fails with
`RangeSetOverflow` (for every inserted range), leaving the set unchanged;
in particular this is the result of `insert` itself whenever the scan hits
such an entry at its start. -/
theorem insert_fails_on_end_overflow (s : RangeSet) (range : Range) (idx : Nat)
    (h1 : idx < s.in_use)
    (h2 : (s.ranges.getD idx ⟨0, 0⟩).«end» = USIZE_MAX) :
    insertLoop s range idx = (s, .error .RangeSetOverflow) ∧
      (idx = 0 → s.insert range = (s, .error .RangeSetOverflow)) := by
  have hch : checked_add (s.ranges.getD idx ⟨0, 0⟩).«end» 1 = none := by
    rw [h2]
    unfold checked_add USIZE_MAX
    rw [if_neg (by omega)]
  have hloop : insertLoop s range idx = (s, .error .RangeSetOverflow) := by
    rw [insertLoop_eq, if_pos h1]
    dsimp only
    rw [hch]
  refine ⟨hloop, fun h0 => ?_⟩
  subst h0
  unfold RangeSet.insert
  rw [hloop]

theorem insert_fails_on_end_overflow_witness :
    (0 < (⟨[⟨3, USIZE_MAX⟩], 1⟩ : RangeSet).in_use) ∧
      ((⟨[⟨3, USIZE_MAX⟩], 1⟩ : RangeSet).ranges.getD 0 ⟨0, 0⟩).«end» = USIZE_MAX ∧
      (insertLoop ⟨[⟨3, USIZE_MAX⟩], 1⟩ ⟨0, 1⟩ 0
          = (⟨[⟨3, USIZE_MAX⟩], 1⟩, .error .RangeSetOverflow) ∧
        (0 = 0 → RangeSet.insert ⟨[⟨3, USIZE_MAX⟩], 1⟩ ⟨0, 1⟩
          = (⟨[⟨3, USIZE_MAX⟩], 1⟩, .error .RangeSetOverflow))) :=
  ⟨by decide, by decide,
    insert_fails_on_end_overflow ⟨[⟨3, USIZE_MAX⟩], 1⟩ ⟨0, 1⟩ 0 (by decide) (by decide)⟩

/-- C4: when `insert` fails in its final capacity check (the scan completed
and `count >= N`), the set is returned exactly as it was before the call. -/
theorem insert_capacity_failure_leaves_set_unchanged (s : RangeSet) (range : Range)
    (s1 : RangeSet) (r1 : Range) (i1 : Nat)
    (hcap : s.in_use ≤ s.ranges.length)
    (hloop : insertLoop s range 0 = (s1, .ok (r1, i1)))
    (hfull : s1.ranges.length ≤ s1.in_use) :
    s.insert range = (s, .error .RangeSetOverflow) ∧ s1 = s := by
  obtain ⟨ha, hb, hc⟩ := insertLoopF_ok_mono _ hloop
  have heq : s1 = s := hc (by omega)
  subst heq
  refine ⟨?_, rfl⟩
  unfold RangeSet.insert
  rw [hloop]
  dsimp only
  rw [if_pos hfull]

theorem insert_capacity_failure_leaves_set_unchanged_witness :
    ((⟨[⟨0, 1⟩], 1⟩ : RangeSet).in_use ≤ (⟨[⟨0, 1⟩], 1⟩ : RangeSet).ranges.length) ∧
      insertLoop ⟨[⟨0, 1⟩], 1⟩ ⟨3, 4⟩ 0 = (⟨[⟨0, 1⟩], 1⟩, .ok (⟨3, 4⟩, 1)) ∧
      ((⟨[⟨0, 1⟩], 1⟩ : RangeSet).ranges.length ≤ (⟨[⟨0, 1⟩], 1⟩ : RangeSet).in_use) ∧
      (RangeSet.insert ⟨[⟨0, 1⟩], 1⟩ ⟨3, 4⟩ = (⟨[⟨0, 1⟩], 1⟩, .error .RangeSetOverflow) ∧
        (⟨[⟨0, 1⟩], 1⟩ : RangeSet) = ⟨[⟨0, 1⟩], 1⟩) :=
  ⟨by decide, by decide, by decide,
    insert_capacity_failure_leaves_set_unchanged ⟨[⟨0, 1⟩], 1⟩ ⟨3, 4⟩ ⟨[⟨0, 1⟩], 1⟩ ⟨3, 4⟩ 1
      (by decide) (by decide) (by decide)⟩

/-! ## Analysis of the remove scan loop -/

theorem split_entry_ok_true_cap {s s' : RangeSet} {idx : Nat} {range : Range}
    (h : s.split_entry idx range = (s', .ok true)) :
    s.in_use < s.ranges.length ∧ idx < s.in_use := by
  unfold RangeSet.split_entry at h
  simp only [] at h
  repeat' split at h
  all_goals injection h with h1 h2
  all_goals try exact Except.noConfusion h2
  all_goals injection h2 with h3
  all_goals try exact Bool.noConfusion h3
  all_goals omega

theorem split_entry_error_of_interior {s s' : RangeSet} {idx : Nat} {range : Range} {e : Error}
    (hidx : idx < s.in_use)
    (hlt : range.«end» < (s.ranges.getD idx ⟨0, 0⟩).«end»)
    (h : s.split_entry idx range = (s', .error e)) :
    e = .RangeSetOverflow ∧ s' = s ∧ s.ranges.length ≤ s.in_use := by
  unfold RangeSet.split_entry at h
  rw [if_neg (by omega)] at h
  by_cases hcap : s.ranges.length ≤ s.in_use
  · rw [if_pos hcap] at h
    injection h with h1 h2
    injection h2 with h3
    exact ⟨h3.symm, h1.symm, hcap⟩
  · rw [if_neg hcap] at h
    exfalso
    have hnew : Range.new (saturating_add range.«end» 1) (s.ranges.getD idx ⟨0, 0⟩).«end»
        = .ok ⟨saturating_add range.«end» 1, (s.ranges.getD idx ⟨0, 0⟩).«end»⟩ := by
      unfold Range.new
      rw [if_pos]
      unfold saturating_add
      have := Nat.min_le_left (range.«end» + 1) USIZE_MAX
      omega
    simp only [] at h
    rw [hnew] at h
    repeat' split at h
    all_goals simp_all

theorem getD_mem_entries {s : RangeSet} {k : Nat} (h1 : k < s.in_use)
    (h2 : k < s.ranges.length) :
    s.ranges.getD k ⟨0, 0⟩ ∈ s.entries := by
  rw [List.getD_eq_getElem _ _ h2]
  unfold RangeSet.entries
  have hk : k < (s.ranges.take s.in_use).length := by
    simp only [List.length_take]
    omega
  rw [show s.ranges[k] = (s.ranges.take s.in_use)[k] from (List.getElem_take _).symm]
  exact List.getElem_mem _

theorem removeLoopF_flag_true (fuel : Nat) :
    ∀ {s : RangeSet} {range : Range} {idx : Nat} {st : RangeSet} {b : Bool},
      removeLoopF fuel s range idx true = (st, .ok b) → b = true := by
  induction fuel with
  | zero =>
    intro s range idx st b h
    injection h with h1 h2
    injection h2 with h3
    exact h3.symm
  | succ n ih =>
    intro s range idx st b h
    simp only [removeLoopF] at h
    by_cases hlt : idx < s.in_use
    · rw [if_pos hlt] at h
      rcases hov : (s.ranges.getD idx ⟨0, 0⟩).overlaps range with _ | x
      · rw [hov] at h
        dsimp only at h
        exact ih h
      · rw [hov] at h
        dsimp only at h
        by_cases hc : range.contains (s.ranges.getD idx ⟨0, 0⟩)
        · rw [if_pos hc, delete_of_lt hlt] at h
          dsimp only at h
          exact ih h
        · rw [if_neg hc] at h
          by_cases h1 : range.start ≤ (s.ranges.getD idx ⟨0, 0⟩).start
          · rw [if_pos h1] at h
            exact ih h
          · rw [if_neg h1] at h
            by_cases h2 : (s.ranges.getD idx ⟨0, 0⟩).«end» ≤ range.«end»
            · rw [if_pos h2] at h
              exact ih h
            · rw [if_neg h2] at h
              rcases hsp : s.split_entry idx range with ⟨s2, r⟩
              rw [hsp] at h
              rcases r with e | b2
              · dsimp only at h
                injection h with ha hb
                exact Except.noConfusion hb
              · dsimp only at h
                exact ih h
    · rw [if_neg hlt] at h
      injection h with h1 h2
      injection h2 with h3
      exact h3.symm

theorem removeLoopF_no_overlap (fuel : Nat) :
    ∀ {s : RangeSet} {range : Range} {idx : Nat} {any : Bool},
      (∀ k, idx ≤ k → k < s.in_use → (s.ranges.getD k ⟨0, 0⟩).overlaps range = none) →
      removeLoopF fuel s range idx any = (s, .ok any) := by
  induction fuel with
  | zero => intro s range idx any _; rfl
  | succ n ih =>
    intro s range idx any hno
    simp only [removeLoopF]
    by_cases hlt : idx < s.in_use
    · rw [if_pos hlt]
      rw [hno idx (le_refl _) hlt]
      exact ih fun k hk1 hk2 => hno k (by omega) hk2
    · rw [if_neg hlt]

theorem removeLoopF_overlap_true (fuel : Nat) :
    ∀ {s : RangeSet} {range : Range} {idx : Nat} {any : Bool} {st : RangeSet} {b : Bool},
      s.in_use ≤ fuel + idx →
      (∃ k, idx ≤ k ∧ k < s.in_use ∧ (s.ranges.getD k ⟨0, 0⟩).overlaps range ≠ none) →
      removeLoopF fuel s range idx any = (st, .ok b) → b = true := by
  induction fuel with
  | zero =>
    intro s range idx any st b hfuel hov h
    obtain ⟨k, hk1, hk2, -⟩ := hov
    omega
  | succ n ih =>
    intro s range idx any st b hfuel hov h
    simp only [removeLoopF] at h
    obtain ⟨k, hk1, hk2, hk3⟩ := hov
    rw [if_pos (by omega)] at h
    rcases hov0 : (s.ranges.getD idx ⟨0, 0⟩).overlaps range with _ | x
    · rw [hov0] at h
      dsimp only at h
      have hk4 : idx ≠ k := fun he => hk3 (he ▸ hov0)
      exact ih (by omega) ⟨k, by omega, hk2, hk3⟩ h
    · rw [hov0] at h
      dsimp only at h
      by_cases hc : range.contains (s.ranges.getD idx ⟨0, 0⟩)
      · rw [if_pos hc, delete_of_lt (by omega)] at h
        dsimp only at h
        exact removeLoopF_flag_true n h
      · rw [if_neg hc] at h
        by_cases h1 : range.start ≤ (s.ranges.getD idx ⟨0, 0⟩).start
        · rw [if_pos h1] at h
          exact removeLoopF_flag_true n h
        · rw [if_neg h1] at h
          by_cases h2 : (s.ranges.getD idx ⟨0, 0⟩).«end» ≤ range.«end»
          · rw [if_pos h2] at h
            exact removeLoopF_flag_true n h
          · rw [if_neg h2] at h
            rcases hsp : s.split_entry idx range with ⟨s2, r⟩
            rw [hsp] at h
            rcases r with e | b2
            · dsimp only at h
              injection h with ha hb
              exact Except.noConfusion hb
            · dsimp only at h
              exact removeLoopF_flag_true n h

theorem removeLoopF_error (fuel : Nat) :
    ∀ {s : RangeSet} {range : Range} {idx : Nat} {any : Bool} {st : RangeSet} {e : Error},
      removeLoopF fuel s range idx any = (st, .error e) →
      e = .RangeSetOverflow ∧
        (s.in_use ≤ s.ranges.length →
          st.in_use = st.ranges.length ∧
            ∃ en ∈ st.entries, en.start < range.start ∧ range.«end» < en.«end») := by
  induction fuel with
  | zero =>
    intro s range idx any st e h
    injection h with h1 h2
    exact Except.noConfusion h2
  | succ n ih =>
    intro s range idx any st e h
    simp only [removeLoopF] at h
    by_cases hlt : idx < s.in_use
    · rw [if_pos hlt] at h
      rcases hov : (s.ranges.getD idx ⟨0, 0⟩).overlaps range with _ | x
      · rw [hov] at h
        dsimp only at h
        exact ih h
      · rw [hov] at h
        dsimp only at h
        by_cases hc : range.contains (s.ranges.getD idx ⟨0, 0⟩)
        · rw [if_pos hc, delete_of_lt hlt] at h
          dsimp only at h
          obtain ⟨he, hwfpart⟩ := ih h
          refine ⟨he, fun hwf => hwfpart ?_⟩
          dsimp only
          rw [swapRunF_length]
          omega
        · rw [if_neg hc] at h
          by_cases h1 : range.start ≤ (s.ranges.getD idx ⟨0, 0⟩).start
          · rw [if_pos h1] at h
            obtain ⟨he, hwfpart⟩ := ih h
            refine ⟨he, fun hwf => hwfpart ?_⟩
            dsimp only
            rw [List.length_set]
            omega
          · rw [if_neg h1] at h
            by_cases h2 : (s.ranges.getD idx ⟨0, 0⟩).«end» ≤ range.«end»
            · rw [if_pos h2] at h
              obtain ⟨he, hwfpart⟩ := ih h
              refine ⟨he, fun hwf => hwfpart ?_⟩
              dsimp only
              rw [List.length_set]
              omega
            · rw [if_neg h2] at h
              rcases hsp : s.split_entry idx range with ⟨s2, r⟩
              rw [hsp] at h
              rcases r with e2 | b2
              · dsimp only at h
                injection h with ha hb
                injection hb with hb2
                obtain ⟨he2, hs2, hcap⟩ := split_entry_error_of_interior hlt (by omega) hsp
                constructor
                · rw [← hb2, he2]
                · intro hwf
                  have hst : st = s := by rw [← ha, hs2]
                  rw [hst]
                  refine ⟨by omega, ?_⟩
                  exact ⟨s.ranges.getD idx ⟨0, 0⟩, getD_mem_entries hlt (by omega),
                    by omega, by omega⟩
              · dsimp only at h
                obtain ⟨he, hwfpart⟩ := ih h
                obtain ⟨hu, hlen, -⟩ := split_entry_ok hsp
                refine ⟨he, fun hwf => hwfpart ?_⟩
                rcases b2 with _ | _
                · rw [if_neg (by simp)] at hu
                  rw [hlen]
                  omega
                · rw [if_pos rfl] at hu
                  obtain ⟨hcap, -⟩ := split_entry_ok_true_cap hsp
                  rw [hlen]
                  omega
    · rw [if_neg hlt] at h
      injection h with h1 h2
      exact Except.noConfusion h2

theorem entries_mem_iff {s : RangeSet} (hwf : s.in_use ≤ s.ranges.length) {e : Range} :
    e ∈ s.entries ↔ ∃ k, k < s.in_use ∧ s.ranges.getD k ⟨0, 0⟩ = e := by
  constructor
  · intro hm
    obtain ⟨k, hk, hek⟩ := List.mem_iff_getElem.mp hm
    have hk2 : k < s.in_use := by
      simp only [RangeSet.entries, List.length_take] at hk
      omega
    refine ⟨k, hk2, ?_⟩
    rw [List.getD_eq_getElem _ _ (by omega : k < s.ranges.length), ← hek]
    exact (List.getElem_take _).symm
  · rintro ⟨k, hk, rfl⟩
    exact getD_mem_entries hk (by omega)

theorem overlaps_ne_none_iff {e r : Range} (he : e.start ≤ e.«end») (hr : r.start ≤ r.«end») :
    e.overlaps r ≠ none ↔
      ∃ x, e.start ≤ x ∧ x ≤ e.«end» ∧ r.start ≤ x ∧ x ≤ r.«end» := by
  unfold Range.overlaps
  by_cases hcond : e.start ≤ r.«end» ∧ r.start ≤ e.«end»
  · rw [if_pos hcond]
    constructor
    · intro _
      exact ⟨max e.start r.start, Nat.le_max_left _ _, Nat.max_le.mpr ⟨he, hcond.2⟩,
        Nat.le_max_right _ _, Nat.max_le.mpr ⟨hcond.1, hr⟩⟩
    · intro _
      simp
  · rw [if_neg hcond]
    constructor
    · intro hx
      exact absurd rfl hx
    · rintro ⟨x, h1, h2, h3, h4⟩
      exact absurd ⟨by omega, by omega⟩ hcond

/-- C6: a successful `remove` returns `true` exactly when some entry of the
set shared at least one point with the removed range, and a `false` result
means the set was left exactly unchanged. -/
theorem remove_true_iff_overlap (s : RangeSet) (range : Range) (st : RangeSet) (b : Bool)
    (hwf : s.in_use ≤ s.ranges.length)
    (hval : ∀ e ∈ s.entries, e.start ≤ e.«end»)
    (hrval : range.start ≤ range.«end»)
    (h : s.remove range = (st, .ok b)) :
    (b = true ↔ ∃ e ∈ s.entries, ∃ x : Nat,
        e.start ≤ x ∧ x ≤ e.«end» ∧ range.start ≤ x ∧ x ≤ range.«end») ∧
    (b = false → st = s) := by
  unfold RangeSet.remove removeLoop at h
  constructor
  · constructor
    · intro hb
      subst hb
      by_contra hno
      have hnone : ∀ k, 0 ≤ k → k < s.in_use →
          (s.ranges.getD k ⟨0, 0⟩).overlaps range = none := by
        intro k _ hk
        by_contra hsome
        have hmem := getD_mem_entries hk (by omega)
        have hpt := (overlaps_ne_none_iff (hval _ hmem) hrval).mp hsome
        exact hno ⟨_, hmem, hpt⟩
      rw [removeLoopF_no_overlap _ hnone] at h
      injection h with h1 h2
      injection h2 with h3
      exact Bool.noConfusion h3
    · rintro ⟨e, hm, x, h1, h2, h3, h4⟩
      obtain ⟨k, hk, hek⟩ := (entries_mem_iff hwf).mp hm
      refine removeLoopF_overlap_true _ (by omega) ⟨k, by omega, hk, ?_⟩ h
      rw [hek]
      exact (overlaps_ne_none_iff (hval _ hm) hrval).mpr ⟨x, h1, h2, h3, h4⟩
  · intro hb
    subst hb
    have hnone : ∀ k, 0 ≤ k → k < s.in_use →
        (s.ranges.getD k ⟨0, 0⟩).overlaps range = none := by
      intro k _ hk
      by_contra hsome
      have := removeLoopF_overlap_true _ (by omega) ⟨k, by omega, hk, hsome⟩ h
      exact Bool.noConfusion this
    rw [removeLoopF_no_overlap _ hnone] at h
    injection h with h1 h2
    exact h1.symm

theorem remove_true_iff_overlap_witness :
    ((⟨[⟨5, 15⟩], 1⟩ : RangeSet).in_use ≤ (⟨[⟨5, 15⟩], 1⟩ : RangeSet).ranges.length) ∧
      (∀ e ∈ (⟨[⟨5, 15⟩], 1⟩ : RangeSet).entries, e.start ≤ e.«end») ∧
      ((⟨16, 20⟩ : Range).start ≤ (⟨16, 20⟩ : Range).«end») ∧
      RangeSet.remove ⟨[⟨5, 15⟩], 1⟩ ⟨16, 20⟩ = (⟨[⟨5, 15⟩], 1⟩, .ok false) ∧
      ((false = true ↔ ∃ e ∈ (⟨[⟨5, 15⟩], 1⟩ : RangeSet).entries, ∃ x : Nat,
          e.start ≤ x ∧ x ≤ e.«end» ∧ (⟨16, 20⟩ : Range).start ≤ x ∧
            x ≤ (⟨16, 20⟩ : Range).«end») ∧
        (false = false → (⟨[⟨5, 15⟩], 1⟩ : RangeSet) = ⟨[⟨5, 15⟩], 1⟩)) :=
  ⟨by decide, by decide, by decide, by decide,
    remove_true_iff_overlap ⟨[⟨5, 15⟩], 1⟩ ⟨16, 20⟩ ⟨[⟨5, 15⟩], 1⟩ false
      (by decide) (by decide) (by decide) (by decide)⟩

/-- Does a result of `remove` carry an `InvalidRange` error? -/
def isInvalidRangeError (r : RangeSet × Except Error Bool) : Bool :=
  match r.2 with
  | .error (.InvalidRange _) => true
  | _ => false

/-- C8: on every call path through `remove`, `split_entry` is only reached
with the removal range strictly interior to the entry, so the construction
of the right remainder never fails: `remove` never returns `InvalidRange`. -/
theorem remove_never_invalid_range (s : RangeSet) (range : Range) :
    isInvalidRangeError (s.remove range) = false := by
  rcases hr : s.remove range with ⟨st, res⟩
  rcases res with e | b
  · unfold RangeSet.remove removeLoop at hr
    have he := (removeLoopF_error _ hr).1
    subst he
    simp [isInvalidRangeError]
  · simp [isInvalidRangeError]

/-- C10: the public operations can only fail with `RangeSetOverflow`
(`IndexOutOfBounds` and `InvalidRange` are never propagated), and a
`remove` failure happens only when a strictly interior removal needs to
split an entry while the count already equals the capacity. -/
theorem insert_remove_error_kinds (s : RangeSet) (range : Range)
    (hwf : s.in_use ≤ s.ranges.length) :
    (∀ e, (s.insert range).2 = .error e → e = .RangeSetOverflow) ∧
    (∀ st e, s.remove range = (st, .error e) →
      e = .RangeSetOverflow ∧ st.in_use = st.ranges.length ∧
        ∃ en ∈ st.entries, en.start < range.start ∧ range.«end» < en.«end») := by
  constructor
  · intro e he
    unfold RangeSet.insert at he
    rcases hl : insertLoop s range 0 with ⟨s1, r1⟩
    rw [hl] at he
    rcases r1 with e2 | ⟨rr, ii⟩
    · dsimp only at he
      injection he with he2
      unfold insertLoop at hl
      rw [he2] at hl
      exact insertLoopF_error_kind _ hl
    · dsimp only at he
      by_cases hcap : s1.ranges.length ≤ s1.in_use
      · rw [if_pos hcap] at he
        injection he with he2
        exact he2.symm
      · rw [if_neg hcap] at he
        exact Except.noConfusion he
  · intro st e h
    unfold RangeSet.remove removeLoop at h
    obtain ⟨he, hrest⟩ := removeLoopF_error _ h
    exact ⟨he, hrest hwf⟩

theorem insert_remove_error_kinds_witness :
    ((⟨[⟨0, 10⟩], 1⟩ : RangeSet).in_use ≤ (⟨[⟨0, 10⟩], 1⟩ : RangeSet).ranges.length) ∧
      ((∀ e, ((⟨[⟨0, 10⟩], 1⟩ : RangeSet).insert ⟨3, 5⟩).2 = .error e →
          e = .RangeSetOverflow) ∧
        (∀ st e, RangeSet.remove ⟨[⟨0, 10⟩], 1⟩ ⟨3, 5⟩ = (st, .error e) →
          e = .RangeSetOverflow ∧ st.in_use = st.ranges.length ∧
            ∃ en ∈ st.entries, en.start < (⟨3, 5⟩ : Range).start ∧
              (⟨3, 5⟩ : Range).«end» < en.«end»)) :=
  ⟨by decide, insert_remove_error_kinds ⟨[⟨0, 10⟩], 1⟩ ⟨3, 5⟩ (by decide)⟩

/-! ## What the swap loop of delete does to the entries -/

theorem getD_set_eq {l : List Range} {j : Nat} {v : Range} (h : j < l.length) :
    (l.set j v).getD j ⟨0, 0⟩ = v := by
  rw [List.getD_eq_getElem?_getD, List.getElem?_set_self h]
  rfl

theorem take_set_of_le (l : List Range) (j m : Nat) (v : Range) (h : m ≤ j) :
    (l.set j v).take m = l.take m := by
  apply List.ext_getElem?
  intro i
  rw [List.getElem?_take, List.getElem?_take]
  by_cases hi : i < m
  · rw [if_pos hi, if_pos hi, List.getElem?_set_ne (by omega)]
  · rw [if_neg hi, if_neg hi]

theorem drop_set_of_lt (l : List Range) (j m : Nat) (v : Range) (h : j < m) :
    (l.set j v).drop m = l.drop m := by
  apply List.ext_getElem?
  intro i
  rw [List.getElem?_drop, List.getElem?_drop, List.getElem?_set_ne (by omega)]

theorem swapIdx_adj_take (l : List Range) (i : Nat) (h : i + 1 < l.length) :
    (swapIdx l i (i + 1)).take (i + 1) = l.take i ++ [l.getD (i + 1) ⟨0, 0⟩] := by
  unfold swapIdx
  rw [if_pos ⟨by omega, h⟩, List.take_succ]
  congr 1
  · rw [take_set_of_le _ _ _ _ (by omega), take_set_of_le _ _ _ _ (by omega)]
  · rw [List.getElem?_set_ne (by omega),
      List.getElem?_set_self (by omega)]
    rfl

theorem swapIdx_adj_drop (l : List Range) (i : Nat) (h : i + 1 < l.length) :
    (swapIdx l i (i + 1)).drop (i + 2) = l.drop (i + 2) := by
  unfold swapIdx
  rw [if_pos ⟨by omega, h⟩, drop_set_of_lt _ _ _ _ (by omega), drop_set_of_lt _ _ _ _ (by omega)]

theorem swapRunF_take (n : Nat) : ∀ (l : List Range) (i : Nat), i + n < l.length →
    (swapRunF n l i).take (i + n) = (l.take (i + n + 1)).eraseIdx i := by
  induction n with
  | zero =>
    intro l i h
    show l.take (i + 0) = (l.take (i + 0 + 1)).eraseIdx i
    rw [List.eraseIdx_eq_take_drop_succ, List.take_take, List.drop_take]
    simp
  | succ n ih =>
    intro l i h
    rw [swapRunF]
    have h' : (i + 1) + n < (swapIdx l i (i + 1)).length := by rw [swapIdx_length]; omega
    rw [show i + (n + 1) = (i + 1) + n from by omega, ih _ _ h']
    rw [List.eraseIdx_eq_take_drop_succ, List.eraseIdx_eq_take_drop_succ]
    rw [List.take_take, List.take_take, List.drop_take, List.drop_take]
    rw [Nat.min_eq_left (by omega), Nat.min_eq_left (by omega)]
    rw [swapIdx_adj_take l i (by omega), swapIdx_adj_drop l i (by omega)]
    rw [show i + 1 + n + 1 - (i + 1 + 1) = n from by omega,
      show i + 1 + n + 1 - (i + 1) = n + 1 from by omega]
    rw [List.drop_eq_getElem_cons (by omega : i + 1 < l.length)]
    rw [List.take_succ_cons, List.append_assoc, List.singleton_append]
    rw [List.getD_eq_getElem _ _ (by omega : i + 1 < l.length)]

theorem delete_entries {s : RangeSet} {idx : Nat} (h : idx < s.in_use)
    (hwf : s.in_use ≤ s.ranges.length) :
    (s.delete idx).1.entries = s.entries.eraseIdx idx := by
  rw [delete_of_lt h]
  unfold RangeSet.entries
  dsimp only
  have hn : idx + (s.in_use - 1 - idx) < s.ranges.length := by omega
  have hs := swapRunF_take (s.in_use - 1 - idx) s.ranges idx hn
  rw [show idx + (s.in_use - 1 - idx) = s.in_use - 1 from by omega] at hs
  rw [hs, show s.in_use - 1 + 1 = s.in_use from by omega]

/-- C9: `delete` with `index < count` removes exactly the entry at that
index, shifting all following entries one slot to the left (their order
preserved) and decrementing the count; with `index >= count` it fails with
`IndexOutOfBounds` and mutates nothing. -/
theorem delete_spec (s : RangeSet) (idx : Nat) (hwf : s.in_use ≤ s.ranges.length) :
    if idx < s.in_use then
      (s.delete idx).2 = .ok () ∧ (s.delete idx).1.in_use = s.in_use - 1 ∧
        (s.delete idx).1.entries = s.entries.eraseIdx idx
    else s.delete idx = (s, .error (.IndexOutOfBounds idx)) := by
  by_cases h : idx < s.in_use
  · rw [if_pos h]
    refine ⟨?_, ?_, delete_entries h hwf⟩
    · rw [delete_of_lt h]
    · rw [delete_of_lt h]
  · rw [if_neg h]
    exact delete_of_ge (by omega)

theorem delete_spec_witness :
    ((⟨[⟨1, 2⟩, ⟨4, 5⟩, ⟨7, 8⟩], 3⟩ : RangeSet).in_use
        ≤ (⟨[⟨1, 2⟩, ⟨4, 5⟩, ⟨7, 8⟩], 3⟩ : RangeSet).ranges.length) ∧
      (if 1 < (⟨[⟨1, 2⟩, ⟨4, 5⟩, ⟨7, 8⟩], 3⟩ : RangeSet).in_use then
        (RangeSet.delete ⟨[⟨1, 2⟩, ⟨4, 5⟩, ⟨7, 8⟩], 3⟩ 1).2 = .ok () ∧
          (RangeSet.delete ⟨[⟨1, 2⟩, ⟨4, 5⟩, ⟨7, 8⟩], 3⟩ 1).1.in_use
            = (⟨[⟨1, 2⟩, ⟨4, 5⟩, ⟨7, 8⟩], 3⟩ : RangeSet).in_use - 1 ∧
          (RangeSet.delete ⟨[⟨1, 2⟩, ⟨4, 5⟩, ⟨7, 8⟩], 3⟩ 1).1.entries
            = (⟨[⟨1, 2⟩, ⟨4, 5⟩, ⟨7, 8⟩], 3⟩ : RangeSet).entries.eraseIdx 1
      else RangeSet.delete ⟨[⟨1, 2⟩, ⟨4, 5⟩, ⟨7, 8⟩], 3⟩ 1
        = (⟨[⟨1, 2⟩, ⟨4, 5⟩, ⟨7, 8⟩], 3⟩, .error (.IndexOutOfBounds 1))) :=
  ⟨by decide, delete_spec ⟨[⟨1, 2⟩, ⟨4, 5⟩, ⟨7, 8⟩], 3⟩ 1 (by decide)⟩

/-- C1 (evidence for the code bug): from the empty capacity-2 set, the two
inserts of `[11,15]` and then `[5,10]` both succeed, yet the resulting
entries `[5,10]`, `[11,15]` touch (`10 + 1 = 11`), violating structural
invariant 3 (and hence `Invariants`): `insert` breaks its scan on
`range.end < entry.start`, which includes the touching case its own
comment says should merge. -/
theorem insert_leaves_touching_entries :
    (((RangeSet.new 2).insert ⟨11, 15⟩).2 = .ok () ∧
        ((((RangeSet.new 2).insert ⟨11, 15⟩).1).insert ⟨5, 10⟩).2 = .ok ()) ∧
      ((((RangeSet.new 2).insert ⟨11, 15⟩).1).insert ⟨5, 10⟩).1.entries
        = [⟨5, 10⟩, ⟨11, 15⟩] ∧
      ¬ gapChained ((((RangeSet.new 2).insert ⟨11, 15⟩).1).insert ⟨5, 10⟩).1.entries ∧
      ¬ Invariants ((((RangeSet.new 2).insert ⟨11, 15⟩).1).insert ⟨5, 10⟩).1 := by
  decide

/-! ## Validity of every entry ever stored (C5) -/

/-- Every slot of the backing array holds a valid machine-word range. -/
def AllWF (s : RangeSet) : Prop := ∀ e ∈ s.ranges, e.WF

theorem default_WF : Range.WF ⟨0, 0⟩ := ⟨Nat.le_refl 0, Nat.zero_le _⟩

theorem getD_WF {l : List Range} (hl : ∀ e ∈ l, e.WF) (k : Nat) :
    (l.getD k ⟨0, 0⟩).WF := by
  rw [List.getD_eq_getElem?_getD]
  rcases hk : l[k]? with _ | v
  · exact default_WF
  · exact hl v (List.getElem?_mem hk)

theorem allWF_set {l : List Range} (v : Range) (hl : ∀ e ∈ l, e.WF) (hv : v.WF)
    (j : Nat) : ∀ e ∈ l.set j v, e.WF := fun e he =>
  (List.mem_or_eq_of_mem_set he).elim (hl e) (fun h => h ▸ hv)

theorem allWF_swapIdx {l : List Range} (hl : ∀ e ∈ l, e.WF) (i j : Nat) :
    ∀ e ∈ swapIdx l i j, e.WF := by
  unfold swapIdx
  split
  · exact allWF_set _ (allWF_set _ hl (getD_WF hl j) i) (getD_WF hl i) j
  · exact hl

theorem allWF_swapRunF (n : Nat) : ∀ {l : List Range}, (∀ e ∈ l, e.WF) → ∀ (i : Nat),
    ∀ e ∈ swapRunF n l i, e.WF := by
  induction n with
  | zero => intro l hl i; exact hl
  | succ n ih => intro l hl i; exact ih (allWF_swapIdx hl i (i + 1)) (i + 1)

theorem allWF_copyWithin {l : List Range} (hl : ∀ e ∈ l, e.WF) (a b c : Nat) :
    ∀ e ∈ copyWithin l a b c, e.WF := by
  intro e he
  unfold copyWithin at he
  obtain ⟨j, hj, he2⟩ := List.mem_map.mp he
  rw [← he2]
  split <;> exact getD_WF hl _

theorem allWF_delete {s : RangeSet} (hs : AllWF s) (idx : Nat) :
    AllWF (s.delete idx).1 := by
  unfold RangeSet.delete
  split
  · exact hs
  · exact allWF_swapRunF _ hs idx

theorem Range.new_ok {a b : Nat} {v : Range} (h : Range.new a b = .ok v) :
    v.start = a ∧ v.«end» = b ∧ a ≤ b := by
  unfold Range.new at h
  split at h
  · injection h with h1
    subst h1
    exact ⟨rfl, rfl, by assumption⟩
  · exact Except.noConfusion h

theorem allWF_split_entry {s : RangeSet} {idx : Nat} {range : Range}
    (hs : AllWF s) (hr : range.WF) :
    AllWF (s.split_entry idx range).1 := by
  unfold RangeSet.split_entry
  split
  · exact hs
  split
  · exact hs
  dsimp only
  split
  · exact hs
  have hentry := getD_WF hs idx
  have hleft : ∀ e ∈ (if (s.ranges.getD idx ⟨0, 0⟩).start < range.start
      then s.ranges.set idx ⟨(s.ranges.getD idx ⟨0, 0⟩).start, saturating_sub range.start 1⟩
      else s.ranges.set idx ⟨(s.ranges.getD idx ⟨0, 0⟩).start, (s.ranges.getD idx ⟨0, 0⟩).start⟩),
      e.WF := by
    split
    · refine allWF_set _ hs ⟨?_, ?_⟩ idx
      · dsimp only
        unfold saturating_sub
        omega
      · dsimp only
        unfold saturating_sub
        obtain ⟨hr1, hr2⟩ := hr
        omega
    · exact allWF_set _ hs ⟨Nat.le_refl _, le_trans hentry.1 hentry.2⟩ idx
  have hmid : ∀ e ∈ (if idx + 1 < s.in_use
      then copyWithin (if (s.ranges.getD idx ⟨0, 0⟩).start < range.start
        then s.ranges.set idx ⟨(s.ranges.getD idx ⟨0, 0⟩).start, saturating_sub range.start 1⟩
        else s.ranges.set idx ⟨(s.ranges.getD idx ⟨0, 0⟩).start, (s.ranges.getD idx ⟨0, 0⟩).start⟩)
        (idx + 1) s.in_use (idx + 2)
      else (if (s.ranges.getD idx ⟨0, 0⟩).start < range.start
        then s.ranges.set idx ⟨(s.ranges.getD idx ⟨0, 0⟩).start, saturating_sub range.start 1⟩
        else s.ranges.set idx ⟨(s.ranges.getD idx ⟨0, 0⟩).start, (s.ranges.getD idx ⟨0, 0⟩).start⟩)),
      e.WF := by
    split
    · exact allWF_copyWithin hleft _ _ _
    · exact hleft
  rcases hnew : Range.new (saturating_add range.«end» 1) (s.ranges.getD idx ⟨0, 0⟩).«end»
    with e2 | newR
  · exact hmid
  · obtain ⟨hv1, hv2, hv3⟩ := Range.new_ok hnew
    refine allWF_set _ hmid ⟨?_, ?_⟩ (idx + 1)
    · rw [hv1, hv2]
      exact hv3
    · rw [hv2]
      exact hentry.2

theorem insertLoopF_allWF (fuel : Nat) :
    ∀ {s : RangeSet} {range : Range} {idx : Nat} {s1 : RangeSet}
      {res : Except Error (Range × Nat)},
      insertLoopF fuel s range idx = (s1, res) → AllWF s → range.WF →
      AllWF s1 ∧ ∀ r1 i1, res = .ok (r1, i1) → r1.WF := by
  induction fuel with
  | zero =>
    intro s range idx s1 res h hs hr
    injection h with h1 h2
    subst h1
    subst h2
    exact ⟨hs, fun r1 i1 hok => by injection hok with hok2; injection hok2 with ha hb; rw [← ha]; exact hr⟩
  | succ n ih =>
    intro s range idx s1 res h hs hr
    simp only [insertLoopF] at h
    by_cases hlt : idx < s.in_use
    · rw [if_pos hlt] at h
      rcases hch : checked_add (s.ranges.getD idx ⟨0, 0⟩).«end» 1 with _ | eend
      · rw [hch] at h
        dsimp only at h
        injection h with h1 h2
        subst h1
        subst h2
        exact ⟨hs, fun r1 i1 hok => Except.noConfusion hok⟩
      · rw [hch] at h
        dsimp only at h
        by_cases h1' : eend < range.start
        · rw [if_pos h1'] at h
          exact ih h hs hr
        · rw [if_neg h1'] at h
          by_cases h2' : range.«end» < (s.ranges.getD idx ⟨0, 0⟩).start
          · rw [if_pos h2'] at h
            injection h with ha hb
            subst ha
            subst hb
            exact ⟨hs, fun r1 i1 hok => by
              injection hok with hok2
              injection hok2 with ha hb
              rw [← ha]
              exact hr⟩
          · rw [if_neg h2'] at h
            rw [delete_of_lt hlt] at h
            dsimp only at h
            have hentry := getD_WF hs idx
            refine ih h (allWF_swapRunF _ hs idx) ⟨?_, ?_⟩
            · exact le_trans (Nat.min_le_left _ _)
                (le_trans hentry.1 (Nat.le_max_left _ _))
            · exact Nat.max_le.mpr ⟨hentry.2, hr.2⟩
    · rw [if_neg hlt] at h
      injection h with ha hb
      subst ha
      subst hb
      exact ⟨hs, fun r1 i1 hok => by
        injection hok with hok2
        injection hok2 with ha hb
        rw [← ha]
        exact hr⟩

theorem insert_allWF {s : RangeSet} {range : Range} (hs : AllWF s) (hr : range.WF) :
    AllWF (s.insert range).1 := by
  unfold RangeSet.insert
  rcases hl : insertLoop s range 0 with ⟨s1, res⟩
  unfold insertLoop at hl
  obtain ⟨hs1, hok⟩ := insertLoopF_allWF _ hl hs hr
  rcases res with e | ⟨rr, ii⟩
  · exact hs1
  · dsimp only
    split
    · exact hs1
    · exact allWF_set _ (fun e he => by
        revert he
        split
        · exact fun he => allWF_copyWithin hs1 _ _ _ e he
        · exact hs1 e) (hok rr ii rfl) ii

theorem removeLoopF_allWF (fuel : Nat) :
    ∀ {s : RangeSet} {range : Range} {idx : Nat} {any : Bool} {s1 : RangeSet}
      {res : Except Error Bool},
      removeLoopF fuel s range idx any = (s1, res) → AllWF s → range.WF →
      AllWF s1 := by
  induction fuel with
  | zero =>
    intro s range idx any s1 res h hs hr
    injection h with h1 h2
    subst h1
    exact hs
  | succ n ih =>
    intro s range idx any s1 res h hs hr
    simp only [removeLoopF] at h
    by_cases hlt : idx < s.in_use
    · rw [if_pos hlt] at h
      have hentry := getD_WF hs idx
      rcases hov : (s.ranges.getD idx ⟨0, 0⟩).overlaps range with _ | x
      · rw [hov] at h
        dsimp only at h
        exact ih h hs hr
      · rw [hov] at h
        dsimp only at h
        by_cases hc : range.contains (s.ranges.getD idx ⟨0, 0⟩)
        · rw [if_pos hc, delete_of_lt hlt] at h
          dsimp only at h
          exact ih h (allWF_swapRunF _ hs idx) hr
        · rw [if_neg hc] at h
          by_cases h1 : range.start ≤ (s.ranges.getD idx ⟨0, 0⟩).start
          · rw [if_pos h1] at h
            have hcut : range.«end» < (s.ranges.getD idx ⟨0, 0⟩).«end» := by
              unfold Range.contains at hc
              omega
            refine ih h (allWF_set ⟨saturating_add range.«end» 1,
              (s.ranges.getD idx ⟨0, 0⟩).«end»⟩ hs ⟨?_, hentry.2⟩ idx) hr
            dsimp only
            unfold saturating_add
            have := Nat.min_le_left (range.«end» + 1) USIZE_MAX
            unfold Range.contains at hc
            omega
          · rw [if_neg h1] at h
            by_cases h2 : (s.ranges.getD idx ⟨0, 0⟩).«end» ≤ range.«end»
            · rw [if_pos h2] at h
              refine ih h (allWF_set _ hs ⟨?_, ?_⟩ idx) hr
              · dsimp only
                unfold saturating_sub Range.contains at *
                omega
              · dsimp only
                unfold saturating_sub
                obtain ⟨hr1, hr2⟩ := hr
                omega
            · rw [if_neg h2] at h
              rcases hsp : s.split_entry idx range with ⟨s2, r⟩
              rw [hsp] at h
              have hs2 : AllWF s2 := by
                have := @allWF_split_entry s idx range hs hr
                rw [hsp] at this
                exact this
              rcases r with e | b2
              · dsimp only at h
                injection h with ha hb
                subst ha
                exact hs2
              · dsimp only at h
                exact ih h hs2 hr
    · rw [if_neg hlt] at h
      injection h with h1 h2
      subst h1
      exact hs

theorem remove_allWF {s : RangeSet} {range : Range} (hs : AllWF s) (hr : range.WF) :
    AllWF (s.remove range).1 := by
  unfold RangeSet.remove removeLoop
  rcases h : removeLoopF (s.in_use - 0) s range 0 false with ⟨s1, res⟩
  exact removeLoopF_allWF _ h hs hr

theorem foldl_allWF (ops : List Op) :
    ∀ (s0 : RangeSet), AllWF s0 → (∀ op ∈ ops, (Op.range op).WF) →
      AllWF (ops.foldl applyOp s0) := by
  induction ops with
  | nil => intro s0 h _; exact h
  | cons op rest ih =>
    intro s0 h0 hops
    rw [List.foldl_cons]
    refine ih _ ?_ (fun o ho => hops o (List.mem_cons_of_mem _ ho))
    rcases op with r | r
    · exact insert_allWF h0 (hops _ (List.mem_cons_self _ _))
    · exact remove_allWF h0 (hops _ (List.mem_cons_self _ _))

theorem applyOps_allWF (N : Nat) (ops : List Op)
    (hops : ∀ op ∈ ops, (Op.range op).WF) : AllWF (applyOps N ops) := by
  unfold applyOps
  refine foldl_allWF ops _ ?_ hops
  intro e he
  unfold RangeSet.new at he
  rw [List.eq_of_mem_replicate he]
  exact default_WF

/-- C5: after every sequence of `insert` and `remove` calls with validly
constructed ranges, starting from the empty set, every entry returned by
`entries` satisfies `start <= end` (trimmed and split entries included). -/
theorem entries_valid_after_ops (N : Nat) (ops : List Op)
    (hops : ∀ op ∈ ops, (Op.range op).WF) :
    ∀ e ∈ (applyOps N ops).entries, e.start ≤ e.«end» := by
  intro e he
  exact (applyOps_allWF N ops hops e (List.mem_of_mem_take he)).1

theorem entries_valid_after_ops_witness :
    (∀ op ∈ [Op.ins ⟨5, 15⟩, Op.rem ⟨7, 10⟩], (Op.range op).WF) ∧
      ∀ e ∈ (applyOps 4 [Op.ins ⟨5, 15⟩, Op.rem ⟨7, 10⟩]).entries, e.start ≤ e.«end» :=
  ⟨by decide, entries_valid_after_ops 4 _ (by decide)⟩

/-! ## The total size computed by len (C2) -/

/-- The folding step of `len`. -/
def lenF (acc : Option Nat) (x : Range) : Option Nat :=
  match acc with
  | none => none
  | some a =>
    match checked_add (x.«end» - x.start) 1 with
    | none => none
    | some v => some ((a + v) % (USIZE_MAX + 1))

theorem len_eq_foldl (s : RangeSet) : s.len = s.entries.foldl lenF (some 0) := rfl

/-- Sum of the sizes of a list of ranges. -/
def sizesSum (l : List Range) : Nat := (l.map (fun e => e.«end» - e.start + 1)).sum

theorem totalSize_eq (s : RangeSet) : totalSize s = sizesSum s.entries := rfl

theorem sizesSum_cons (x : Range) (xs : List Range) :
    sizesSum (x :: xs) = (x.«end» - x.start + 1) + sizesSum xs := by
  simp [sizesSum]

theorem chain_sum_bound : ∀ (l : List Range) (a : Range), gapChained (a :: l) →
    (∀ e ∈ a :: l, e.WF) →
    sizesSum (a :: l) + a.start ≤ (l.getLastD a).«end» + 1 ∧
      (l ≠ [] → sizesSum (a :: l) + a.start + 1 ≤ (l.getLastD a).«end» + 1) := by
  intro l
  induction l with
  | nil =>
    intro a hch hwf
    have ha := hwf a (List.mem_cons_self _ _)
    obtain ⟨h1, h2⟩ := ha
    constructor
    · rw [sizesSum_cons]
      simp [sizesSum]
      omega
    · intro hne
      exact absurd rfl hne
  | cons b t ih =>
    intro a hch hwf
    obtain ⟨hgap, hch2⟩ := hch
    obtain ⟨ha1, ha2⟩ := hwf a (List.mem_cons_self _ _)
    have hb := ih b hch2 (fun e he => hwf e (List.mem_cons_of_mem _ he))
    rw [List.getLastD_cons]
    rw [sizesSum_cons]
    unfold gapRel at hgap
    obtain ⟨hb1, -⟩ := hb
    constructor
    · omega
    · intro _
      omega

theorem total_le {s : RangeSet} (hinv : Invariants s)
    (hall : ∀ e ∈ s.entries, e.«end» - e.start + 1 ≤ USIZE_MAX) :
    totalSize s ≤ USIZE_MAX := by
  obtain ⟨hwf, hchain, -⟩ := hinv
  rw [totalSize_eq]
  rcases hl : s.entries with _ | ⟨a, t⟩
  · simp [sizesSum]
  · rw [hl] at hchain hwf hall
    rcases t with _ | ⟨b, t2⟩
    · have := hall a (List.mem_cons_self _ _)
      rw [sizesSum_cons]
      simp [sizesSum]
      omega
    · have hb := chain_sum_bound (b :: t2) a hchain hwf
      have hlast_mem : ((b :: t2).getLastD a) ∈ a :: b :: t2 := List.getLastD_mem_cons _ _
      obtain ⟨hl1, hl2⟩ := hwf _ hlast_mem
      have h2 := hb.2 (by simp)
      omega

theorem foldl_lenF_none (l : List Range) : l.foldl lenF none = none := by
  induction l with
  | nil => rfl
  | cons x xs ih => rw [List.foldl_cons]; exact ih

theorem foldl_lenF_some (l : List Range) : ∀ acc : Nat,
    (∀ e ∈ l, e.«end» - e.start + 1 ≤ USIZE_MAX) →
    acc + sizesSum l ≤ USIZE_MAX →
    l.foldl lenF (some acc) = some (acc + sizesSum l) := by
  induction l with
  | nil =>
    intro acc _ _
    simp [sizesSum]
  | cons x xs ih =>
    intro acc hall hb
    rw [List.foldl_cons]
    have hx := hall x (List.mem_cons_self _ _)
    rw [sizesSum_cons] at hb
    have hstep : lenF (some acc) x = some (acc + (x.«end» - x.start + 1)) := by
      unfold lenF checked_add
      rw [if_pos (by omega)]
      dsimp only
      rw [Nat.mod_eq_of_lt (by omega)]
    rw [hstep, ih _ (fun e he => hall e (List.mem_cons_of_mem _ he)) (by omega)]
    rw [sizesSum_cons]
    congr 1
    omega

theorem foldl_lenF_exists_none (l : List Range) : ∀ acc : Nat,
    (∃ e ∈ l, USIZE_MAX < e.«end» - e.start + 1) →
    l.foldl lenF (some acc) = none := by
  induction l with
  | nil =>
    rintro acc ⟨e, he, -⟩
    cases he
  | cons x xs ih =>
    rintro acc ⟨e, he, hsz⟩
    rw [List.foldl_cons]
    by_cases hx : USIZE_MAX < x.«end» - x.start + 1
    · have hstep : lenF (some acc) x = none := by
        unfold lenF checked_add
        rw [if_neg (by omega)]
      rw [hstep]
      exact foldl_lenF_none xs
    · have hstep : lenF (some acc) x
          = some ((acc + (x.«end» - x.start + 1)) % (USIZE_MAX + 1)) := by
        unfold lenF checked_add
        rw [if_pos (by omega)]
      rcases List.mem_cons.mp he with rfl | he2
      · omega
      · rw [hstep]
        exact ih _ ⟨e, he2, hsz⟩

/-- C2: for every set satisfying the structural invariants, `len` returns
the sum over the entries of `end - start + 1` whenever that sum fits in
the size type and `none` whenever it would exceed `USIZE_MAX`; for an
empty set it returns `some 0`, never `none`. -/
theorem len_eq_totalSize (s : RangeSet) (hinv : Invariants s) :
    s.len = (if totalSize s ≤ USIZE_MAX then some (totalSize s) else none) ∧
      (s.is_empty = true → s.len = some 0) := by
  constructor
  · by_cases hall : ∀ e ∈ s.entries, e.«end» - e.start + 1 ≤ USIZE_MAX
    · have htot : totalSize s ≤ USIZE_MAX := total_le hinv hall
      rw [if_pos htot, len_eq_foldl]
      rw [foldl_lenF_some s.entries 0 hall (by rw [totalSize_eq] at htot; omega)]
      rw [totalSize_eq, Nat.zero_add]
    · push_neg at hall
      obtain ⟨e, he, hsz⟩ := hall
      have hge : USIZE_MAX < totalSize s := by
        have hmem : (e.«end» - e.start + 1)
            ∈ s.entries.map (fun e => e.«end» - e.start + 1) :=
          List.mem_map_of_mem _ he
        have := List.single_le_sum (fun x _ => Nat.zero_le x) _ hmem
        unfold totalSize
        omega
      rw [if_neg (by omega), len_eq_foldl]
      exact foldl_lenF_exists_none s.entries 0 ⟨e, he, hsz⟩
  · intro hemp
    have h0 : s.in_use = 0 := by
      simpa [RangeSet.is_empty] using hemp
    rw [len_eq_foldl]
    unfold RangeSet.entries
    rw [h0]
    rfl

theorem len_eq_totalSize_witness :
    Invariants ⟨[⟨0, 1⟩, ⟨5, 9⟩], 2⟩ ∧
      ((⟨[⟨0, 1⟩, ⟨5, 9⟩], 2⟩ : RangeSet).len
          = (if totalSize ⟨[⟨0, 1⟩, ⟨5, 9⟩], 2⟩ ≤ USIZE_MAX
             then some (totalSize ⟨[⟨0, 1⟩, ⟨5, 9⟩], 2⟩) else none) ∧
        ((⟨[⟨0, 1⟩, ⟨5, 9⟩], 2⟩ : RangeSet).is_empty = true →
          (⟨[⟨0, 1⟩, ⟨5, 9⟩], 2⟩ : RangeSet).len = some 0)) :=
  ⟨by decide, len_eq_totalSize ⟨[⟨0, 1⟩, ⟨5, 9⟩], 2⟩ (by decide)⟩

/-! ## Removing a range that is exactly one entry (C3) -/

theorem gapChained_adjacent : ∀ (l : List Range) (j : Nat), gapChained l →
    j + 1 < l.length → gapRel (l.getD j ⟨0, 0⟩) (l.getD (j + 1) ⟨0, 0⟩) := by
  intro l
  induction l with
  | nil => intro j _ h; simp at h
  | cons a t ih =>
    intro j hch hj
    rcases t with _ | ⟨b, t2⟩
    · simp at hj
    · obtain ⟨hab, h2⟩ := hch
      rcases j with _ | m
      · exact hab
      · exact ih m h2 (by simpa using hj)

theorem getD_take_lt {l : List Range} {n k : Nat} (h : k < n) :
    (l.take n).getD k ⟨0, 0⟩ = l.getD k ⟨0, 0⟩ := by
  rw [List.getD_eq_getElem?_getD, List.getD_eq_getElem?_getD, List.getElem?_take, if_pos h]

theorem gapChained_lt (l : List Range) (hch : gapChained l)
    (hval : ∀ e ∈ l, e.start ≤ e.«end») :
    ∀ j k, j < k → k < l.length → (l.getD j ⟨0, 0⟩).«end» + 1 < (l.getD k ⟨0, 0⟩).start := by
  intro j k
  induction k with
  | zero => omega
  | succ m ih =>
    intro hjk hk
    by_cases hjm : j = m
    · subst hjm
      exact gapChained_adjacent l j hch hk
    · have h1 := ih (by omega) (by omega)
      have h2 := gapChained_adjacent l m hch hk
      have h3 : (l.getD m ⟨0, 0⟩).start ≤ (l.getD m ⟨0, 0⟩).«end» := by
        refine hval _ ?_
        rw [List.getD_eq_getElem _ _ (by omega : m < l.length)]
        exact List.getElem_mem _
      unfold gapRel at h2
      omega

theorem getD_eraseIdx_ge {L : List Range} {i k : Nat} (h : i ≤ k) (hk : k + 1 < L.length) :
    (L.eraseIdx i).getD k ⟨0, 0⟩ = L.getD (k + 1) ⟨0, 0⟩ := by
  have hlen : (L.eraseIdx i).length = L.length - 1 := by
    rw [List.length_eraseIdx]
    rw [if_pos (by omega)]
  rw [List.getD_eq_getElem _ _ (by omega : k < (L.eraseIdx i).length),
    List.getD_eq_getElem _ _ (by omega : k + 1 < L.length)]
  exact List.getElem_eraseIdx_of_ge L i k (by omega) h

theorem getD_eraseIdx_lt {L : List Range} {i k : Nat} (h : k < i) (hk : k < L.length - 1) :
    (L.eraseIdx i).getD k ⟨0, 0⟩ = L.getD k ⟨0, 0⟩ := by
  have hlen : k < (L.eraseIdx i).length := by
    rw [List.length_eraseIdx]
    split <;> omega
  rw [List.getD_eq_getElem _ _ hlen, List.getD_eq_getElem _ _ (by omega : k < L.length)]
  exact List.getElem_eraseIdx_of_lt L i k hlen h

theorem delete_in_use {s : RangeSet} {i : Nat} (hi : i < s.in_use) :
    (s.delete i).1.in_use = s.in_use - 1 := by
  rw [delete_of_lt hi]

theorem delete_length {s : RangeSet} {i : Nat} (hi : i < s.in_use) :
    (s.delete i).1.ranges.length = s.ranges.length := by
  rw [delete_of_lt hi]
  exact swapRunF_length _ _ _

theorem delete_getD_ge {s : RangeSet} {i k : Nat} (hi : i < s.in_use)
    (hcap : s.in_use ≤ s.ranges.length) (hik : i ≤ k) (hk : k < s.in_use - 1) :
    (s.delete i).1.ranges.getD k ⟨0, 0⟩ = s.ranges.getD (k + 1) ⟨0, 0⟩ := by
  have he := delete_entries hi hcap
  have hu := delete_in_use hi
  have h1 : (s.delete i).1.ranges.getD k ⟨0, 0⟩ = (s.delete i).1.entries.getD k ⟨0, 0⟩ := by
    unfold RangeSet.entries
    rw [getD_take_lt (by omega)]
  rw [h1, he]
  unfold RangeSet.entries
  rw [getD_eraseIdx_ge hik (by rw [List.length_take]; omega), getD_take_lt (by omega)]

theorem delete_getD_lt {s : RangeSet} {i k : Nat} (hi : i < s.in_use)
    (hcap : s.in_use ≤ s.ranges.length) (hk : k < i) :
    (s.delete i).1.ranges.getD k ⟨0, 0⟩ = s.ranges.getD k ⟨0, 0⟩ := by
  have he := delete_entries hi hcap
  have hu := delete_in_use hi
  have h1 : (s.delete i).1.ranges.getD k ⟨0, 0⟩ = (s.delete i).1.entries.getD k ⟨0, 0⟩ := by
    unfold RangeSet.entries
    rw [getD_take_lt (by omega)]
  rw [h1, he]
  unfold RangeSet.entries
  rw [getD_eraseIdx_lt hk (by rw [List.length_take]; omega), getD_take_lt (by omega)]

theorem remove_exact_entry (s : RangeSet) (i : Nat)
    (hwf : ∀ e ∈ s.entries, e.WF)
    (hch : gapChained s.entries)
    (hcap : s.in_use ≤ s.ranges.length)
    (hi : i < s.in_use) :
    s.remove (s.ranges.getD i ⟨0, 0⟩) = ((s.delete i).1, .ok true) := by
  have hval : ∀ e ∈ s.entries, e.start ≤ e.«end» := fun e he => (hwf e he).1
  have pairwise : ∀ j k, j < k → k < s.in_use →
      (s.ranges.getD j ⟨0, 0⟩).«end» + 1 < (s.ranges.getD k ⟨0, 0⟩).start := by
    intro j k hjk hk
    have := gapChained_lt s.entries hch hval j k hjk
      (by unfold RangeSet.entries; rw [List.length_take]; omega)
    unfold RangeSet.entries at this
    rwa [getD_take_lt (by omega), getD_take_lt (by omega)] at this
  have hvali : (s.ranges.getD i ⟨0, 0⟩).start ≤ (s.ranges.getD i ⟨0, 0⟩).«end» :=
    hval _ (getD_mem_entries hi (by omega))
  have hpre : ∀ j, j < i →
      (s.ranges.getD j ⟨0, 0⟩).overlaps (s.ranges.getD i ⟨0, 0⟩) = none := by
    intro j hj
    unfold Range.overlaps
    rw [if_neg]
    rintro ⟨h1, h2⟩
    have hp := pairwise j i hj hi
    omega
  have hpost : ∀ k, i ≤ k → k < (s.delete i).1.in_use →
      ((s.delete i).1.ranges.getD k ⟨0, 0⟩).overlaps (s.ranges.getD i ⟨0, 0⟩) = none := by
    intro k hk1 hk2
    rw [delete_in_use hi] at hk2
    rw [delete_getD_ge hi hcap hk1 hk2]
    unfold Range.overlaps
    rw [if_neg]
    rintro ⟨h1, h2⟩
    have hp := pairwise i (k + 1) (by omega) (by omega)
    omega
  have main : ∀ d idx, idx + d = i → ∀ fuel, s.in_use ≤ fuel + idx →
      removeLoopF fuel s (s.ranges.getD i ⟨0, 0⟩) idx false = ((s.delete i).1, .ok true) := by
    intro d
    induction d with
    | zero =>
      intro idx hidx fuel hfuel
      have hidx0 : idx = i := by omega
      subst hidx0
      rcases fuel with _ | f
      · omega
      · simp only [removeLoopF]
        rw [if_pos hi]
        have hsome : (s.ranges.getD idx ⟨0, 0⟩).overlaps (s.ranges.getD idx ⟨0, 0⟩)
            = some ⟨max (s.ranges.getD idx ⟨0, 0⟩).start (s.ranges.getD idx ⟨0, 0⟩).start,
                min (s.ranges.getD idx ⟨0, 0⟩).«end» (s.ranges.getD idx ⟨0, 0⟩).«end»⟩ := by
          unfold Range.overlaps
          rw [if_pos ⟨le_trans hvali (le_refl _), le_trans hvali (le_refl _)⟩]
        rw [hsome]
        dsimp only
        rw [if_pos ⟨le_refl _, le_refl _⟩]
        rw [delete_of_lt hi]
        dsimp only
        rw [delete_of_lt hi] at hpost
        dsimp only at hpost
        exact removeLoopF_no_overlap f hpost
    | succ d ih =>
      intro idx hidx fuel hfuel
      rcases fuel with _ | f
      · omega
      · simp only [removeLoopF]
        rw [if_pos (by omega)]
        rw [hpre idx (by omega)]
        dsimp only
        exact ih (idx + 1) (by omega) f (by omega)
  unfold RangeSet.remove removeLoop
  exact main i 0 (by omega) (s.in_use - 0) (by omega)

/-! ## Re-inserting the removed entry (C3) -/

theorem insertLoopF_skip_to (fuel : Nat) : ∀ (s : RangeSet) (r : Range) (idx t : Nat),
    idx ≤ t → t ≤ s.in_use → s.in_use ≤ fuel + idx →
    (∀ k, idx ≤ k → k < t →
      (s.ranges.getD k ⟨0, 0⟩).«end» + 1 ≤ USIZE_MAX ∧
        (s.ranges.getD k ⟨0, 0⟩).«end» + 1 < r.start) →
    (t < s.in_use →
      (s.ranges.getD t ⟨0, 0⟩).«end» + 1 ≤ USIZE_MAX ∧
        ¬((s.ranges.getD t ⟨0, 0⟩).«end» + 1 < r.start) ∧
        r.«end» < (s.ranges.getD t ⟨0, 0⟩).start) →
    insertLoopF fuel s r idx = (s, .ok (r, t)) := by
  induction fuel with
  | zero =>
    intro s r idx t h1 h2 h3 hskip hbreak
    have hit : idx = t := by omega
    subst hit
    rfl
  | succ n ih =>
    intro s r idx t h1 h2 h3 hskip hbreak
    simp only [insertLoopF]
    by_cases hlt : idx < s.in_use
    · rw [if_pos hlt]
      by_cases hit : idx < t
      · obtain ⟨hmax, hlt2⟩ := hskip idx (le_refl _) hit
        have hch : checked_add (s.ranges.getD idx ⟨0, 0⟩).«end» 1
            = some ((s.ranges.getD idx ⟨0, 0⟩).«end» + 1) := by
          unfold checked_add
          rw [if_pos hmax]
        rw [hch]
        dsimp only
        rw [if_pos hlt2]
        exact ih s r (idx + 1) t (by omega) h2 (by omega)
          (fun k hk1 hk2 => hskip k (by omega) hk2) hbreak
      · have hidxt : idx = t := by omega
        subst hidxt
        obtain ⟨hmax, hnot, hbr⟩ := hbreak hlt
        have hch : checked_add (s.ranges.getD idx ⟨0, 0⟩).«end» 1
            = some ((s.ranges.getD idx ⟨0, 0⟩).«end» + 1) := by
          unfold checked_add
          rw [if_pos hmax]
        rw [hch]
        dsimp only
        rw [if_neg hnot, if_pos hbr]
    · rw [if_neg hlt]
      have hit : idx = t := by omega
      subst hit
      rfl

theorem copyWithin_getElem? (l : List Range) (a b c j : Nat) :
    (copyWithin l a b c)[j]?
      = (if j < l.length then
          some (if c ≤ j ∧ j < c + (b - a) then l.getD (a + (j - c)) ⟨0, 0⟩
                else l.getD j ⟨0, 0⟩)
         else none) := by
  unfold copyWithin
  by_cases hj : j < l.length
  · rw [if_pos hj]
    rw [List.getElem?_map, List.getElem?_range hj]
    rfl
  · rw [if_neg hj, List.getElem?_eq_none]
    rw [List.length_map, List.length_range]
    omega

theorem insert_write_entries (s : RangeSet) (r : Range) (t : Nat)
    (ht : t ≤ s.in_use) (hcap : s.in_use < s.ranges.length) :
    RangeSet.entries ⟨(if t < s.in_use then copyWithin s.ranges t s.in_use (t + 1)
        else s.ranges).set t r, s.in_use + 1⟩
      = s.entries.insertIdx t r := by
  have hZlen : (if t < s.in_use then copyWithin s.ranges t s.in_use (t + 1)
      else s.ranges).length = s.ranges.length := by
    split
    · exact copyWithin_length _ _ _ _
    · rfl
  unfold RangeSet.entries
  have htl : t ≤ (s.ranges.take s.in_use).length := by
    rw [List.length_take]
    omega
  have hrhslen : (List.insertIdx t r (s.ranges.take s.in_use)).length = s.in_use + 1 := by
    rw [List.length_insertIdx t _ htl, List.length_take]
    omega
  apply List.ext_getElem?
  intro j
  rw [List.getElem?_take]
  by_cases hju : j < s.in_use + 1
  · rw [if_pos hju]
    by_cases hjt : j = t
    · subst hjt
      rw [List.getElem?_set_self (by rw [hZlen]; omega)]
      rw [List.getElem?_eq_getElem (by rw [hrhslen]; omega)]
      rw [List.getElem_insertIdx_self _ _ _ htl]
    · rw [List.getElem?_set_ne (fun he => hjt he.symm)]
      rcases Nat.lt_or_ge j t with hjlt | hjge
      · have hjl : j < s.ranges.length := by omega
        have hlhs : (if t < s.in_use then copyWithin s.ranges t s.in_use (t + 1)
            else s.ranges)[j]? = some (s.ranges.getD j ⟨0, 0⟩) := by
          split
          · rw [copyWithin_getElem?, if_pos hjl, if_neg (by omega)]
          · rw [List.getD_eq_getElem _ _ hjl, List.getElem?_eq_getElem hjl]
        rw [hlhs]
        rw [List.getElem?_eq_getElem (by rw [hrhslen]; omega)]
        rw [List.getElem_insertIdx_of_lt _ _ _ _ hjlt (by rw [List.length_take]; omega)]
        rw [List.getD_eq_getElem _ _ hjl]
        congr 1
        exact (List.getElem_take _).symm
      · have htu : t < s.in_use := by omega
        obtain ⟨k, rfl⟩ : ∃ k, j = t + k + 1 := ⟨j - t - 1, by omega⟩
        have hjl : t + k + 1 < s.ranges.length := by omega
        have hlhs : (if t < s.in_use then copyWithin s.ranges t s.in_use (t + 1)
            else s.ranges)[t + k + 1]? = some (s.ranges.getD (t + k) ⟨0, 0⟩) := by
          rw [if_pos htu]
          rw [copyWithin_getElem?, if_pos hjl, if_pos (by omega)]
          congr 2
          omega
        rw [hlhs]
        rw [List.getElem?_eq_getElem (by rw [hrhslen]; omega)]
        rw [List.getElem_insertIdx_add_succ _ _ _ _ (by rw [List.length_take]; omega)]
        rw [List.getD_eq_getElem _ _ (by omega : t + k < s.ranges.length)]
        congr 1
        exact (List.getElem_take _).symm
  · rw [if_neg hju, List.getElem?_eq_none]
    rw [hrhslen]
    omega

theorem insertIdx_getD_eraseIdx (L : List Range) (i : Nat) (h : i < L.length) :
    (L.eraseIdx i).insertIdx i (L.getD i ⟨0, 0⟩) = L := by
  have hel : (L.eraseIdx i).length = L.length - 1 := by
    rw [List.length_eraseIdx, if_pos h]
  apply List.ext_getElem
  · rw [List.length_insertIdx _ _ (by omega), hel]
    omega
  · intro j hj1 hj2
    rcases Nat.lt_trichotomy j i with hj | rfl | hj
    · rw [List.getElem_insertIdx_of_lt _ _ _ _ hj (by omega)]
      exact List.getElem_eraseIdx_of_lt _ _ _ (by omega) hj
    · rw [List.getElem_insertIdx_self _ _ _ (by omega)]
      rw [List.getD_eq_getElem _ _ h]
    · obtain ⟨k, rfl⟩ : ∃ k, j = i + k + 1 := ⟨j - i - 1, by omega⟩
      rw [List.getElem_insertIdx_add_succ _ _ _ _ (by omega)]
      exact List.getElem_eraseIdx_of_ge _ _ _ (by omega) (by omega)

theorem ranges_gap (s : RangeSet) (hch : gapChained s.entries)
    (hval : ∀ e ∈ s.entries, e.start ≤ e.«end») (hcap : s.in_use ≤ s.ranges.length) :
    ∀ j k, j < k → k < s.in_use →
      (s.ranges.getD j ⟨0, 0⟩).«end» + 1 < (s.ranges.getD k ⟨0, 0⟩).start := by
  intro j k hjk hk
  have := gapChained_lt s.entries hch hval j k hjk
    (by unfold RangeSet.entries; rw [List.length_take]; omega)
  unfold RangeSet.entries at this
  rwa [getD_take_lt (by omega), getD_take_lt (by omega)] at this

/-- C3 counterexample: the set `{[5,6],[8,9]}` satisfies the invariants and
the removal range `[5,9]` only meets entries that lie fully inside it (it
touches no entry outside itself), `remove` succeeds returning `true`, the
re-`insert` succeeds, and yet the resulting entries `[[5,9]]` differ from
the pre-removal entries: the two merged-away fragments cannot be recovered. -/
theorem remove_insert_does_not_restore :
    Invariants ⟨[⟨5, 6⟩, ⟨8, 9⟩, ⟨0, 0⟩, ⟨0, 0⟩], 2⟩ ∧
      (∀ e ∈ (⟨[⟨5, 6⟩, ⟨8, 9⟩, ⟨0, 0⟩, ⟨0, 0⟩], 2⟩ : RangeSet).entries,
        Range.contains ⟨5, 9⟩ e) ∧
      (RangeSet.remove ⟨[⟨5, 6⟩, ⟨8, 9⟩, ⟨0, 0⟩, ⟨0, 0⟩], 2⟩ ⟨5, 9⟩).2 = .ok true ∧
      ((RangeSet.remove ⟨[⟨5, 6⟩, ⟨8, 9⟩, ⟨0, 0⟩, ⟨0, 0⟩], 2⟩ ⟨5, 9⟩).1.insert ⟨5, 9⟩).2
        = .ok () ∧
      ((RangeSet.remove ⟨[⟨5, 6⟩, ⟨8, 9⟩, ⟨0, 0⟩, ⟨0, 0⟩], 2⟩ ⟨5, 9⟩).1.insert ⟨5, 9⟩).1.entries
        ≠ (⟨[⟨5, 6⟩, ⟨8, 9⟩, ⟨0, 0⟩, ⟨0, 0⟩], 2⟩ : RangeSet).entries := by
  decide

/-- C3 (amended): for a set satisfying the structural invariants, if the
removed range is exactly the `i`-th entry and the entry after it (when one
exists) has `end < USIZE_MAX`, then `remove` succeeds returning `true`,
deleting exactly that entry, and a subsequent `insert` of the same range
succeeds and restores the entries and the count to exactly their
pre-removal values. -/
theorem remove_insert_restores_exact_entry (s : RangeSet) (i : Nat) (r : Range)
    (hinv : Invariants s) (hi : i < s.in_use)
    (hr : r = s.ranges.getD i ⟨0, 0⟩)
    (hfol : i + 1 < s.in_use → (s.ranges.getD (i + 1) ⟨0, 0⟩).«end» < USIZE_MAX) :
    (s.remove r).2 = .ok true ∧
      (s.remove r).1.entries = s.entries.eraseIdx i ∧
      ((s.remove r).1.insert r).2 = .ok () ∧
      ((s.remove r).1.insert r).1.entries = s.entries ∧
      ((s.remove r).1.insert r).1.in_use = s.in_use := by
  obtain ⟨hwf, hch, hcap⟩ := hinv
  have hval : ∀ e ∈ s.entries, e.start ≤ e.«end» := fun e he => (hwf e he).1
  subst hr
  have hrem := remove_exact_entry s i hwf hch hcap hi
  rw [hrem]
  dsimp only
  have hgap := ranges_gap s hch hval hcap
  have hrWF := hwf _ (getD_mem_entries hi (by omega))
  obtain ⟨hr1, hr2⟩ := hrWF
  have hu1 : (s.delete i).1.in_use = s.in_use - 1 := delete_in_use hi
  have hl1 : (s.delete i).1.ranges.length = s.ranges.length := delete_length hi
  have hloop : insertLoop (s.delete i).1 (s.ranges.getD i ⟨0, 0⟩) 0
      = ((s.delete i).1, .ok (s.ranges.getD i ⟨0, 0⟩, i)) := by
    unfold insertLoop
    apply insertLoopF_skip_to
    · omega
    · omega
    · omega
    · intro k hk0 hki
      rw [delete_getD_lt hi hcap hki]
      have hg := hgap k i hki hi
      exact ⟨by omega, by omega⟩
    · intro hti
      rw [hu1] at hti
      have hii : i + 1 < s.in_use := by omega
      rw [delete_getD_ge hi hcap (le_refl i) (by omega)]
      have hf := hfol hii
      have hgap2 := hgap i (i + 1) (by omega) hii
      have hvnext : (s.ranges.getD (i + 1) ⟨0, 0⟩).start
          ≤ (s.ranges.getD (i + 1) ⟨0, 0⟩).«end» :=
        hval _ (getD_mem_entries hii (by omega))
      exact ⟨by omega, by omega, by omega⟩
  unfold RangeSet.insert
  rw [hloop]
  dsimp only
  rw [if_neg (by omega)]
  dsimp only
  refine ⟨rfl, delete_entries hi hcap, rfl, ?_, ?_⟩
  · rw [insert_write_entries (s.delete i).1 (s.ranges.getD i ⟨0, 0⟩) i (by omega) (by omega)]
    rw [delete_entries hi hcap]
    rw [show s.ranges.getD i ⟨0, 0⟩ = s.entries.getD i ⟨0, 0⟩ from (getD_take_lt hi).symm]
    exact insertIdx_getD_eraseIdx s.entries i
      (by unfold RangeSet.entries; rw [List.length_take]; omega)
  · dsimp only
    omega

theorem remove_insert_restores_exact_entry_witness :
    Invariants ⟨[⟨5, 15⟩, ⟨20, 30⟩, ⟨0, 0⟩], 2⟩ ∧
      (0 < (⟨[⟨5, 15⟩, ⟨20, 30⟩, ⟨0, 0⟩], 2⟩ : RangeSet).in_use) ∧
      ((⟨5, 15⟩ : Range) = (⟨[⟨5, 15⟩, ⟨20, 30⟩, ⟨0, 0⟩], 2⟩ : RangeSet).ranges.getD 0 ⟨0, 0⟩) ∧
      (0 + 1 < (⟨[⟨5, 15⟩, ⟨20, 30⟩, ⟨0, 0⟩], 2⟩ : RangeSet).in_use →
        ((⟨[⟨5, 15⟩, ⟨20, 30⟩, ⟨0, 0⟩], 2⟩ : RangeSet).ranges.getD (0 + 1) ⟨0, 0⟩).«end»
          < USIZE_MAX) ∧
      ((RangeSet.remove ⟨[⟨5, 15⟩, ⟨20, 30⟩, ⟨0, 0⟩], 2⟩ ⟨5, 15⟩).2 = .ok true ∧
        (RangeSet.remove ⟨[⟨5, 15⟩, ⟨20, 30⟩, ⟨0, 0⟩], 2⟩ ⟨5, 15⟩).1.entries
          = (⟨[⟨5, 15⟩, ⟨20, 30⟩, ⟨0, 0⟩], 2⟩ : RangeSet).entries.eraseIdx 0 ∧
        ((RangeSet.remove ⟨[⟨5, 15⟩, ⟨20, 30⟩, ⟨0, 0⟩], 2⟩ ⟨5, 15⟩).1.insert ⟨5, 15⟩).2
          = .ok () ∧
        ((RangeSet.remove ⟨[⟨5, 15⟩, ⟨20, 30⟩, ⟨0, 0⟩], 2⟩ ⟨5, 15⟩).1.insert ⟨5, 15⟩).1.entries
          = (⟨[⟨5, 15⟩, ⟨20, 30⟩, ⟨0, 0⟩], 2⟩ : RangeSet).entries ∧
        ((RangeSet.remove ⟨[⟨5, 15⟩, ⟨20, 30⟩, ⟨0, 0⟩], 2⟩ ⟨5, 15⟩).1.insert ⟨5, 15⟩).1.in_use
          = (⟨[⟨5, 15⟩, ⟨20, 30⟩, ⟨0, 0⟩], 2⟩ : RangeSet).in_use) :=
  ⟨by decide, by decide, by decide, by decide,
    remove_insert_restores_exact_entry ⟨[⟨5, 15⟩, ⟨20, 30⟩, ⟨0, 0⟩], 2⟩ 0 ⟨5, 15⟩
      (by decide) (by decide) (by decide) (by decide)⟩
